import Mathlib

/-!
Verification of the drum-sample extraction pipeline
(`tools/extract_drums.py`): audio normalization chain, 16-bit
quantization, and the packed two-samples-per-word asset encoding.

Audio buffers are modelled as lists of rationals (exact arithmetic in
place of numpy float operations); quantized PCM samples as integers;
packed words as naturals built with the same bitwise operations the
source uses.
-/

namespace ExtractDrums

/-! ## Asset encoder: quantization (`save_as_raw`)

Source: `audio_int16 = (audio_data * 32767).astype(np.int16)`.
`astype(np.int16)` is a C-style cast: it truncates toward zero. -/

/-- Truncation toward zero of a rational, as performed by
`astype(np.int16)` on a float value (floor for nonnegative values,
ceiling for negative ones). -/
def ratTrunc (q : ℚ) : ℤ := if 0 ≤ q then ⌊q⌋ else ⌈q⌉

/-- Quantization of one normalized sample, from
`(audio_data * 32767).astype(np.int16)` in `save_as_raw`. -/
def quantizeSample (x : ℚ) : ℤ := ratTrunc (x * 32767)

/-- Function `save_as_raw`: element-wise quantization of the float buffer to
16-bit signed integers (the raw little-endian dump is this list of
int16 values). -/
def save_as_raw (audio : List ℚ) : List ℤ := audio.map quantizeSample

/-- What the spec claims the quantizer does: `round(sample * 32767)`
clamped to the signed 16-bit range.  Stated from the spec's words, for
comparison with `quantizeSample`. -/
def quantizeClaimed (x : ℚ) : ℤ := max (-32768) (min 32767 (round (x * 32767)))

/-! ## Asset encoder: packed word array (`generate_c_header`) -/

/-- The low 16 bits of a signed sample: `samples[i] & 0xFFFF` in
Python, i.e. the two's-complement representation. -/
def toU16 (x : ℤ) : ℕ := (x % 65536).toNat

/-- Packing loop of `generate_c_header`: for `i in range(0, num_samples, 2)`,
`sample1 = samples[i] & 0xFFFF`, `sample2 = samples[i+1] & 0xFFFF` if
present else `0`, `packed = sample1 | (sample2 << 16)`. -/
def packPairs : List ℤ → List ℕ
  | [] => []
  | [x] => [toU16 x ||| (0 <<< 16)]
  | x :: y :: rest => (toU16 x ||| (toU16 y <<< 16)) :: packPairs rest

/-- Header word of `generate_c_header`:
`format_word = (0x81 << 24) | (num_samples & 0xFFFFFF)`. -/
def headerWord (numSamples : ℕ) : ℕ := (0x81 <<< 24) ||| (numSamples &&& 0xFFFFFF)

/-- The packed word array emitted by `generate_c_header`: the header
word followed by the two-samples-per-word data. -/
def cHeaderWords (samples : List ℤ) : List ℕ :=
  headerWord samples.length :: packPairs samples

/-- Declared array size in `generate_c_header`:
`num_uint32 = 1 + (num_samples + 1) // 2`. -/
def numUint32 (numSamples : ℕ) : ℕ := 1 + (numSamples + 1) / 2

/-! ## Decoder (from the spec's section-6 layout, for the round-trip
claim) -/

/-- Two's-complement interpretation of a 16-bit field. -/
def toS16 (u : ℕ) : ℤ := if u < 32768 then (u : ℤ) else (u : ℤ) - 65536

/-- Decoder for the packed layout, written from the spec's section-6
wire format: word 0's low 24 bits give the sample count, each further
word yields bits [15:0] then bits [31:16] as two's-complement 16-bit
samples, and the count drops any padding half-word. -/
def decodeWords : List ℕ → List ℤ
  | [] => []
  | h :: data =>
      ((data.map (fun w => [toS16 (w % 65536), toS16 (w / 65536 % 65536)])).flatten).take
        (h % 2 ^ 24)

/-! ## Helper lemmas for the packed encoding -/

/-- Two-step list induction matching the shape of `packPairs`. -/
theorem twoStepInduction {α : Type} {P : List α → Prop} (h0 : P [])
    (h1 : ∀ x, P [x]) (h2 : ∀ x y rest, P rest → P (x :: y :: rest)) :
    ∀ s : List α, P s
  | [] => h0
  | [x] => h1 x
  | x :: y :: rest => h2 x y rest (twoStepInduction h0 h1 h2 rest)

theorem toU16_lt (x : ℤ) : toU16 x < 65536 := by
  have h : x % 65536 < 65536 := Int.emod_lt_of_pos x (by norm_num)
  have h0 : 0 ≤ x % 65536 := Int.emod_nonneg x (by norm_num)
  unfold toU16
  omega

/-- Bit-packing as arithmetic: `a ||| (b <<< 16) = a + b * 2^16` when
`a` fits in 16 bits. -/
theorem lor_shiftLeft_eq_add (a b : ℕ) (ha : a < 65536) :
    a ||| (b <<< 16) = a + b * 65536 := by
  have h := Nat.mul_add_lt_is_or (i := 16) (b := a) (a := b) (by omega)
  rw [Nat.shiftLeft_eq, Nat.or_comm, Nat.mul_comm b (2 ^ 16), ← h]
  omega

theorem packWord_eq_add (x y : ℤ) :
    toU16 x ||| (toU16 y <<< 16) = toU16 x + toU16 y * 65536 :=
  lor_shiftLeft_eq_add _ _ (toU16_lt x)

theorem headerWord_eq_add (n : ℕ) :
    headerWord n = n % 2 ^ 24 + 0x81 * 2 ^ 24 := by
  have hlt : n % 2 ^ 24 < 2 ^ 24 := Nat.mod_lt _ (by norm_num)
  have h := Nat.mul_add_lt_is_or (i := 24) (b := n % 2 ^ 24) (a := 0x81) hlt
  have hmask : (0xFFFFFF : ℕ) = 2 ^ 24 - 1 := by norm_num
  unfold headerWord
  rw [hmask, Nat.and_pow_two_sub_one_eq_mod, Nat.shiftLeft_eq,
    Nat.mul_comm 0x81 (2 ^ 24), ← h]
  omega

theorem packPairs_length (s : List ℤ) :
    (packPairs s).length = (s.length + 1) / 2 := by
  induction s using twoStepInduction with
  | h0 => simp [packPairs]
  | h1 x => simp [packPairs]
  | h2 x y rest ih => simp [packPairs, ih]; omega

theorem packPairs_single_eq (x : ℤ) : packPairs [x] = [toU16 x] := by
  simp [packPairs]

theorem packPairs_getD (s : List ℤ) :
    ∀ i, i < (packPairs s).length →
      (packPairs s).getD i 0 % 65536 = toU16 (s.getD (2 * i) 0) ∧
      (packPairs s).getD i 0 / 65536 =
        (if 2 * i + 1 < s.length then toU16 (s.getD (2 * i + 1) 0) else 0) := by
  induction s using twoStepInduction with
  | h0 => intro i hi; simp [packPairs] at hi
  | h1 x =>
      intro i hi
      rw [packPairs_single_eq] at hi ⊢
      have hi0 : i = 0 := by simp at hi; omega
      subst hi0
      have hx := toU16_lt x
      simp [List.getD, Nat.mod_eq_of_lt hx, Nat.div_eq_of_lt hx]
  | h2 x y rest ih =>
      intro i hi
      match i with
      | 0 =>
          have hx := toU16_lt x
          have hy := toU16_lt y
          simp only [packPairs, List.getD_cons_zero, packWord_eq_add]
          constructor
          · rw [Nat.add_mul_mod_self_right, Nat.mod_eq_of_lt hx]
            simp
          · rw [Nat.add_mul_div_right _ _ (by norm_num : (0:ℕ) < 65536),
              Nat.div_eq_of_lt hx]
            have hcond : 2 * 0 + 1 < (x :: y :: rest).length := by
              simp only [List.length_cons]; omega
            rw [if_pos hcond]
            simp
      | j + 1 =>
          have hlen : j < (packPairs rest).length := by
            simp only [packPairs, List.length_cons] at hi
            omega
          have hrec := ih j hlen
          simp only [packPairs, List.getD_cons_succ]
          have h2j : 2 * (j + 1) = 2 * j + 1 + 1 := by omega
          rw [h2j]
          simp only [List.getD_cons_succ]
          have hcond : (2 * j + 1 + 1 + 1 < (x :: y :: rest).length) ↔
              (2 * j + 1 < rest.length) := by
            simp only [List.length_cons]; omega
          constructor
          · exact hrec.1
          · simp only [hcond]
            exact hrec.2

/-- C1: for every quantized sample sequence of length `n ≥ 1`, the
packed word array has exactly `1 + (n + 1) / 2` words (the declared
array size `numUint32 n`); word 0 equals `(0x81 <<< 24) ||| (n &&& 0xFFFFFF)`,
so its bits [31:24] hold the tag `0x81` and its bits [23:0] hold the
sample count; each word `i ≥ 1` holds sample `2*(i-1)` in bits [15:0]
and sample `2*(i-1)+1` in bits [31:16] (zero when absent); and when `n`
is odd the final word's upper 16 bits are zero. -/
theorem c1_packed_layout (samples : List ℤ) (hn : 1 ≤ samples.length) :
    (cHeaderWords samples).length = 1 + (samples.length + 1) / 2 ∧
    (cHeaderWords samples).length = numUint32 samples.length ∧
    (cHeaderWords samples).getD 0 0 =
      (0x81 <<< 24) ||| (samples.length &&& 0xFFFFFF) ∧
    (cHeaderWords samples).getD 0 0 / 2 ^ 24 = 0x81 ∧
    (cHeaderWords samples).getD 0 0 % 2 ^ 24 = samples.length % 2 ^ 24 ∧
    (∀ i, 1 ≤ i → i < (cHeaderWords samples).length →
      (cHeaderWords samples).getD i 0 % 2 ^ 16 =
        toU16 (samples.getD (2 * (i - 1)) 0) ∧
      (cHeaderWords samples).getD i 0 / 2 ^ 16 =
        (if 2 * (i - 1) + 1 < samples.length then
          toU16 (samples.getD (2 * (i - 1) + 1) 0) else 0)) ∧
    (samples.length % 2 = 1 →
      (cHeaderWords samples).getD ((cHeaderWords samples).length - 1) 0 / 2 ^ 16
        = 0) := by
  have hlen : (cHeaderWords samples).length = 1 + (samples.length + 1) / 2 := by
    simp [cHeaderWords, packPairs_length]
    omega
  have hpow : (2 : ℕ) ^ 16 = 65536 := by norm_num
  have hword : ∀ i, 1 ≤ i → i < (cHeaderWords samples).length →
      (cHeaderWords samples).getD i 0 % 2 ^ 16 =
        toU16 (samples.getD (2 * (i - 1)) 0) ∧
      (cHeaderWords samples).getD i 0 / 2 ^ 16 =
        (if 2 * (i - 1) + 1 < samples.length then
          toU16 (samples.getD (2 * (i - 1) + 1) 0) else 0) := by
    intro i h1 h2
    obtain ⟨j, rfl⟩ : ∃ j, i = j + 1 := ⟨i - 1, by omega⟩
    have hj : j < (packPairs samples).length := by
      simp only [cHeaderWords, List.length_cons] at h2
      omega
    have h := packPairs_getD samples j hj
    simpa [cHeaderWords, hpow] using h
  refine ⟨hlen, by rw [hlen]; rfl, ?_, ?_, ?_, hword, ?_⟩
  · simp [cHeaderWords, headerWord]
  · have h := headerWord_eq_add samples.length
    have hlt : samples.length % 2 ^ 24 < 2 ^ 24 := Nat.mod_lt _ (by norm_num)
    simp only [cHeaderWords, List.getD_cons_zero]
    omega
  · have h := headerWord_eq_add samples.length
    simp only [cHeaderWords, List.getD_cons_zero]
    omega
  · intro hodd
    have hi1 : 1 ≤ (cHeaderWords samples).length - 1 := by rw [hlen]; omega
    have hi2 : (cHeaderWords samples).length - 1 < (cHeaderWords samples).length := by
      rw [hlen]; omega
    have h := (hword _ hi1 hi2).2
    rw [h, if_neg]
    rw [hlen]
    omega

/-- Witness for C1 at the concrete odd-length input `[1, -2, 3]`. -/
theorem c1_packed_layout_witness :
    (cHeaderWords [1, -2, 3]).length = 3 ∧
    (cHeaderWords [1, -2, 3]).getD 2 0 / 2 ^ 16 = 0 := by
  have h := c1_packed_layout [1, -2, 3] (by decide)
  have hlen : (cHeaderWords [1, -2, 3]).length = 3 := by
    rw [h.1]; rfl
  refine ⟨hlen, ?_⟩
  have h2 := h.2.2.2.2.2.2 (by decide)
  rw [hlen] at h2
  exact h2

theorem toS16_toU16 (x : ℤ) (h1 : -32768 ≤ x) (h2 : x ≤ 32767) :
    toS16 (toU16 x) = x := by
  unfold toS16 toU16
  have hm0 : 0 ≤ x % 65536 := Int.emod_nonneg x (by norm_num)
  have hm1 : x % 65536 < 65536 := Int.emod_lt_of_pos x (by norm_num)
  have hcase : x % 65536 = x ∨ x % 65536 = x + 65536 := by omega
  split <;> omega

theorem decode_packPairs (s : List ℤ)
    (hr : ∀ x ∈ s, -32768 ≤ x ∧ x ≤ 32767) :
    ((packPairs s).map
      (fun w => [toS16 (w % 65536), toS16 (w / 65536 % 65536)])).flatten.take
        s.length = s := by
  induction s using twoStepInduction with
  | h0 => simp [packPairs]
  | h1 x =>
      obtain ⟨hx1, hx2⟩ := hr x (by simp)
      have hx := toU16_lt x
      rw [packPairs_single_eq]
      simp [Nat.mod_eq_of_lt hx, Nat.div_eq_of_lt hx, toS16_toU16 x hx1 hx2]
  | h2 x y rest ih =>
      obtain ⟨hx1, hx2⟩ := hr x (by simp)
      obtain ⟨hy1, hy2⟩ := hr y (by simp)
      have hx := toU16_lt x
      have hy := toU16_lt y
      have hrest : ∀ z ∈ rest, -32768 ≤ z ∧ z ≤ 32767 := by
        intro z hz; exact hr z (by simp [hz])
      simp only [packPairs, packWord_eq_add, List.map_cons, List.flatten_cons,
        List.length_cons]
      rw [Nat.add_mul_mod_self_right, Nat.mod_eq_of_lt hx,
        Nat.add_mul_div_right _ _ (by norm_num : (0:ℕ) < 65536),
        Nat.div_eq_of_lt hx, Nat.zero_add, Nat.mod_eq_of_lt hy,
        toS16_toU16 x hx1 hx2, toS16_toU16 y hy1 hy2]
      simp only [List.cons_append, List.nil_append, List.take_succ_cons]
      rw [ih hrest]

/-- C2: packing 16-bit signed samples two-per-word and decoding per the
section-6 layout (low half then high half of each data word as
two's-complement 16-bit integers, truncated to the header's sample
count) reproduces the original samples exactly, for any sample count
the 24-bit header field supports. -/
theorem c2_roundtrip (samples : List ℤ)
    (hr : ∀ x ∈ samples, -32768 ≤ x ∧ x ≤ 32767)
    (hn : samples.length < 2 ^ 24) :
    decodeWords (cHeaderWords samples) = samples := by
  have hcount : headerWord samples.length % 2 ^ 24 = samples.length := by
    have h := headerWord_eq_add samples.length
    omega
  show ((packPairs samples).map
      (fun w => [toS16 (w % 65536), toS16 (w / 65536 % 65536)])).flatten.take
        (headerWord samples.length % 2 ^ 24) = samples
  rw [hcount]
  exact decode_packPairs samples hr

/-- Witness for C2 at the concrete input `[5, -5, 123]`. -/
theorem c2_roundtrip_witness :
    decodeWords (cHeaderWords [5, -5, 123]) = [5, -5, 123] :=
  c2_roundtrip [5, -5, 123] (by decide) (by decide)

/-- C3 counterexample: the claim says the encoder computes
`round(x * 32767)` clamped, but `astype(np.int16)` truncates toward
zero.  At `x = 1/8` (exactly representable in float32) the product is
`4095.875`: truncation gives `4095` while the claimed rounding gives
`4096`. -/
theorem c3_quantize_counterexample :
    save_as_raw [(1 : ℚ) / 8] = [4095] ∧
    quantizeClaimed ((1 : ℚ) / 8) = 4096 ∧
    save_as_raw [(1 : ℚ) / 8] ≠ [quantizeClaimed ((1 : ℚ) / 8)] := by
  have hq : quantizeSample ((1 : ℚ) / 8) = 4095 := by
    unfold quantizeSample ratTrunc
    rw [if_pos (by norm_num)]
    norm_num
  have hc : quantizeClaimed ((1 : ℚ) / 8) = 4096 := by
    unfold quantizeClaimed
    rw [round_eq]
    norm_num
  have hmap : save_as_raw [(1 : ℚ) / 8] = [quantizeSample ((1 : ℚ) / 8)] := rfl
  refine ⟨by rw [hmap, hq], hc, by rw [hmap, hq, hc]; decide⟩

theorem quantizeSample_bounds (x : ℚ) (h1 : -1 ≤ x) (h2 : x ≤ 1) :
    -32767 ≤ quantizeSample x ∧ quantizeSample x ≤ 32767 := by
  unfold quantizeSample ratTrunc
  split_ifs with h
  · constructor
    · have h0 : (0 : ℤ) ≤ ⌊x * 32767⌋ := Int.floor_nonneg.mpr h
      omega
    · have hle : x * 32767 ≤ 32767 := by nlinarith
      calc ⌊x * 32767⌋ ≤ ⌊(32767 : ℚ)⌋ := Int.floor_le_floor hle
        _ = 32767 := by norm_num
  · push_neg at h
    constructor
    · have hge : ((-32767 : ℤ) : ℚ) ≤ x * 32767 := by push_cast; nlinarith
      calc (-32767 : ℤ) = ⌈((-32767 : ℤ) : ℚ)⌉ := (Int.ceil_intCast _).symm
        _ ≤ ⌈x * 32767⌉ := Int.ceil_le_ceil hge
    · have h0 : ⌈x * 32767⌉ ≤ (0 : ℤ) := by
        rw [Int.ceil_le]
        push_cast
        exact le_of_lt h
      omega

/-- C3 amended: the encoder quantizes each sample `x` by truncating
`x * 32767` toward zero (floor for nonnegative, ceiling for negative),
with no rounding and no clamping; for `x ∈ [-1, 1]` the result already
lies within `[-32767, 32767]`. -/
theorem c3_quantize_truncates (x : ℚ) :
    (0 ≤ x → quantizeSample x = ⌊x * 32767⌋) ∧
    (x < 0 → quantizeSample x = ⌈x * 32767⌉) ∧
    (-1 ≤ x → x ≤ 1 →
      -32767 ≤ quantizeSample x ∧ quantizeSample x ≤ 32767) := by
  refine ⟨?_, ?_, fun h1 h2 => quantizeSample_bounds x h1 h2⟩
  · intro hx
    unfold quantizeSample ratTrunc
    rw [if_pos (mul_nonneg hx (by norm_num))]
  · intro hx
    unfold quantizeSample ratTrunc
    rw [if_neg (by push_neg; exact mul_neg_of_neg_of_pos hx (by norm_num))]

/-- Witness for the amended C3 at `x = 1/2`. -/
theorem c3_quantize_truncates_witness :
    quantizeSample ((1 : ℚ) / 2) = ⌊((1 : ℚ) / 2) * 32767⌋ ∧
    -32767 ≤ quantizeSample ((1 : ℚ) / 2) := by
  refine ⟨(c3_quantize_truncates (1 / 2)).1 (by norm_num),
    ((c3_quantize_truncates (1 / 2)).2.2 (by norm_num) (by norm_num)).1⟩

/-! ## Audio normalizer (`trim_silence`, `apply_fade_in`,
`apply_fade_out`, `normalize_audio`) -/

/-- Peak amplitude `np.max(np.abs(audio_data))`: the absolute peak of a buffer
(`0` for the empty buffer, on which the numpy call would raise). -/
def absPeak (audio : List ℚ) : ℚ := (audio.map (fun x => |x|)).foldr max 0

/-- Function `normalize_audio`: scale so the absolute peak hits `target_peak`
(the call site uses the default `0.9`); unchanged when the peak is
not positive. -/
def normalize_audio (audio : List ℚ) (target_peak : ℚ) : List ℚ :=
  if 0 < absPeak audio then audio.map (fun x => x * (target_peak / absPeak audio))
  else audio

/-- Function `trim_silence`: indices whose absolute value strictly exceeds
`max_val * threshold`; if none, the buffer unchanged; otherwise the
slice from `max(0, first - 100)` to `min(len, last + 4410)`
(`audio_data[start:end]`). -/
def trim_silence (audio : List ℚ) (threshold : ℚ) : List ℚ :=
  let thresholdVal := absPeak audio * threshold
  let nonSilent := (List.range audio.length).filter
    (fun i => thresholdVal < |audio.getD i 0|)
  match nonSilent.head?, nonSilent.getLast? with
  | some first, some last =>
      (audio.take (min audio.length (last + 4410))).drop (first - 100)
  | _, _ => audio

/-- One point of `np.linspace(0.0, 1.0, n)`: `k / (n - 1)` (and `0.0`
for the single-point case `n = 1`, as numpy produces; rational
division by zero is `0`). -/
def fadeInRamp (n k : ℕ) : ℚ := (k : ℚ) / ((n : ℚ) - 1)

/-- One point of `np.linspace(1.0, 0.0, n)`: `1 - k / (n - 1)` (and
`1.0` for `n = 1`, as numpy produces). -/
def fadeOutRamp (n k : ℕ) : ℚ := 1 - (k : ℚ) / ((n : ℚ) - 1)

/-- Function `apply_fade_in`: multiply the first `min fade_samples len` samples
by the linear ramp from `0.0` to `1.0`. -/
def apply_fade_in (audio : List ℚ) (fadeSamples : ℕ) : List ℚ :=
  let n := min fadeSamples audio.length
  audio.mapIdx (fun i x => if i < n then x * fadeInRamp n i else x)

/-- Function `apply_fade_out`: multiply the last `min fade_samples len` samples
by the linear ramp from `1.0` to `0.0` (`audio_data[-n:] *= fade`). -/
def apply_fade_out (audio : List ℚ) (fadeSamples : ℕ) : List ℚ :=
  let n := min fadeSamples audio.length
  let start := audio.length - n
  audio.mapIdx (fun i x => if start ≤ i then x * fadeOutRamp n (i - start) else x)

theorem le_absPeak (audio : List ℚ) : ∀ x ∈ audio, |x| ≤ absPeak audio := by
  induction audio with
  | nil => simp
  | cons a l ih =>
      intro x hx
      rcases List.mem_cons.mp hx with rfl | hx
      · simp only [absPeak, List.map_cons, List.foldr_cons]
        exact le_max_left _ _
      · have h := ih x hx
        simp only [absPeak, List.map_cons, List.foldr_cons]
        exact le_trans h (le_max_right _ _)

theorem absPeak_nonneg (audio : List ℚ) : 0 ≤ absPeak audio := by
  induction audio with
  | nil => simp [absPeak]
  | cons a l ih =>
      simp only [absPeak, List.map_cons, List.foldr_cons]
      exact le_trans ih (le_max_right _ _)

theorem absPeak_map_mul (audio : List ℚ) (c : ℚ) (hc : 0 ≤ c) :
    absPeak (audio.map (fun x => x * c)) = absPeak audio * c := by
  induction audio with
  | nil => simp [absPeak]
  | cons a l ih =>
      simp only [absPeak, List.map_cons, List.foldr_cons] at ih ⊢
      rw [abs_mul, abs_of_nonneg hc, ih, max_mul_of_nonneg _ _ hc]

/-- C5: the peak-normalize stage scales the buffer so that its
absolute peak equals `0.9` exactly whenever the input peak is nonzero,
and returns the buffer unchanged when the input peak is `0` (an
all-zero buffer stays all-zero). -/
theorem c5_normalize_peak (audio : List ℚ) (hne : audio ≠ []) :
    (absPeak audio ≠ 0 →
      absPeak (normalize_audio audio (9 / 10)) = 9 / 10) ∧
    (absPeak audio = 0 → normalize_audio audio (9 / 10) = audio) := by
  constructor
  · intro hz
    have hpos : 0 < absPeak audio := lt_of_le_of_ne (absPeak_nonneg audio)
      (Ne.symm hz)
    unfold normalize_audio
    rw [if_pos hpos, absPeak_map_mul _ _ (by positivity)]
    field_simp
    ring
  · intro hz
    unfold normalize_audio
    rw [if_neg (by rw [hz]; exact lt_irrefl 0)]

/-- Witness for C5 at the concrete buffers `[1/2, -1/4]` and `[0, 0]`. -/
theorem c5_normalize_peak_witness :
    absPeak (normalize_audio [(1 : ℚ) / 2, -1 / 4] (9 / 10)) = 9 / 10 ∧
    normalize_audio [(0 : ℚ), 0] (9 / 10) = [0, 0] := by
  have h1 : absPeak [(1 : ℚ) / 2, -1 / 4] = 1 / 2 := by
    unfold absPeak
    simp only [List.map_cons, List.map_nil, List.foldr_cons, List.foldr_nil]
    rw [abs_of_pos (by norm_num), abs_of_neg (by norm_num)]
    norm_num [max_def]
  constructor
  · exact (c5_normalize_peak [(1 : ℚ) / 2, -1 / 4] (by decide)).1
      (by rw [h1]; norm_num)
  · exact (c5_normalize_peak [(0 : ℚ), 0] (by decide)).2 (by simp [absPeak])

/-- C10: every sample emitted by the peak-normalize stage (the last
stage of the normalizer chain) lies in `[-0.9, 0.9]`, so the encoder's
unguarded `x * 32767` conversion stays strictly inside the signed
16-bit range and never wraps. -/
theorem c10_no_overflow (audio : List ℚ) :
    (∀ y ∈ normalize_audio audio (9 / 10), |y| ≤ 9 / 10) ∧
    (∀ z ∈ save_as_raw (normalize_audio audio (9 / 10)),
      -32768 ≤ z ∧ z ≤ 32767) := by
  have hbound : ∀ y ∈ normalize_audio audio (9 / 10), |y| ≤ 9 / 10 := by
    intro y hy
    unfold normalize_audio at hy
    split_ifs at hy with hpos
    · obtain ⟨x, hx, rfl⟩ := List.mem_map.mp hy
      have h1 := le_absPeak audio x hx
      have hc : (0 : ℚ) ≤ 9 / 10 / absPeak audio :=
        div_nonneg (by norm_num) (le_of_lt hpos)
      have h2 : |x * (9 / 10 / absPeak audio)| =
          |x| * (9 / 10 / absPeak audio) := by
        rw [abs_mul, abs_of_nonneg hc]
      rw [h2]
      calc |x| * (9 / 10 / absPeak audio)
          ≤ absPeak audio * (9 / 10 / absPeak audio) :=
            mul_le_mul_of_nonneg_right h1 hc
        _ = 9 / 10 := by
            field_simp
            ring
    · have h1 := le_absPeak audio y hy
      have h2 : absPeak audio ≤ 0 := le_of_not_lt hpos
      calc |y| ≤ absPeak audio := h1
        _ ≤ 0 := h2
        _ ≤ 9 / 10 := by norm_num
  refine ⟨hbound, ?_⟩
  intro z hz
  obtain ⟨y, hy, rfl⟩ := List.mem_map.mp hz
  have hb := hbound y hy
  have hy1 : -(9 / 10 : ℚ) ≤ y := neg_le_of_abs_le hb
  have hy2 : y ≤ 9 / 10 := le_of_abs_le hb
  obtain ⟨hr1, hr2⟩ := quantizeSample_bounds y (by linarith) (by linarith)
  exact ⟨by omega, by omega⟩

/-- Witness for C10 at the concrete buffer `[1/2, -1/4]`. -/
theorem c10_no_overflow_witness :
    |([(9 : ℚ) / 10, -9 / 20].getD 0 0)| ≤ 9 / 10 ∧
    (-32768 ≤ quantizeSample ((9 : ℚ) / 10) ∧
      quantizeSample ((9 : ℚ) / 10) ≤ 32767) := by
  have h := c10_no_overflow [(1 : ℚ) / 2, -1 / 4]
  have hmem : normalize_audio [(1 : ℚ) / 2, -1 / 4] (9 / 10) =
      [(9 : ℚ) / 10, -9 / 20] := by
    unfold normalize_audio
    have h1 : absPeak [(1 : ℚ) / 2, -1 / 4] = 1 / 2 := by
      unfold absPeak
      simp only [List.map_cons, List.map_nil, List.foldr_cons, List.foldr_nil]
      rw [abs_of_pos (by norm_num), abs_of_neg (by norm_num)]
      norm_num [max_def]
    rw [h1]
    norm_num
  constructor
  · have := h.1 ((9 : ℚ) / 10) (by rw [hmem]; simp)
    simpa using this
  · have := h.2 (quantizeSample ((9 : ℚ) / 10))
      (by
        rw [hmem]
        show quantizeSample ((9 : ℚ) / 10) ∈
          List.map quantizeSample [(9 : ℚ) / 10, -9 / 20]
        simp)
    exact this

theorem div_cast_mono (i j : ℕ) (d : ℚ) (hij : i ≤ j) (hd : 0 ≤ d) :
    (i : ℚ) / d ≤ (j : ℚ) / d := by
  rcases eq_or_lt_of_le hd with h | h
  · rw [← h]; simp
  · have hij' : (i : ℚ) ≤ (j : ℚ) := by exact_mod_cast hij
    gcongr

theorem fadeInRamp_mono (n i j : ℕ) (hij : i ≤ j) (hj : j < n) :
    fadeInRamp n i ≤ fadeInRamp n j := by
  unfold fadeInRamp
  have hd : (0 : ℚ) ≤ (n : ℚ) - 1 := by
    have : 1 ≤ n := by omega
    have h1 : (1 : ℚ) ≤ (n : ℚ) := by exact_mod_cast this
    linarith
  exact div_cast_mono i j _ hij hd

theorem fadeOutRamp_anti (n i j : ℕ) (hij : i ≤ j) (hn : 1 ≤ n) :
    fadeOutRamp n j ≤ fadeOutRamp n i := by
  unfold fadeOutRamp
  have hd : (0 : ℚ) ≤ (n : ℚ) - 1 := by
    have h1 : (1 : ℚ) ≤ (n : ℚ) := by exact_mod_cast hn
    linarith
  have := div_cast_mono i j ((n : ℚ) - 1) hij hd
  linarith

theorem apply_fade_in_getD (audio : List ℚ) (fadeSamples i : ℕ)
    (h : i < audio.length) :
    (apply_fade_in audio fadeSamples).getD i 0 =
      (if i < min fadeSamples audio.length then
        audio.getD i 0 * fadeInRamp (min fadeSamples audio.length) i
      else audio.getD i 0) := by
  unfold apply_fade_in
  have hlen : i < (audio.mapIdx (fun i x =>
      if i < min fadeSamples audio.length then
        x * fadeInRamp (min fadeSamples audio.length) i else x)).length := by
    simpa using h
  rw [List.getD_eq_getElem _ _ hlen, List.getElem_mapIdx,
    List.getD_eq_getElem _ _ h]

theorem apply_fade_out_getD (audio : List ℚ) (fadeSamples i : ℕ)
    (h : i < audio.length) :
    (apply_fade_out audio fadeSamples).getD i 0 =
      (if audio.length - min fadeSamples audio.length ≤ i then
        audio.getD i 0 * fadeOutRamp (min fadeSamples audio.length)
          (i - (audio.length - min fadeSamples audio.length))
      else audio.getD i 0) := by
  unfold apply_fade_out
  have hlen : i < (audio.mapIdx (fun i x =>
      if audio.length - min fadeSamples audio.length ≤ i then
        x * fadeOutRamp (min fadeSamples audio.length)
          (i - (audio.length - min fadeSamples audio.length)) else x)).length := by
    simpa using h
  rw [List.getD_eq_getElem _ _ hlen, List.getElem_mapIdx,
    List.getD_eq_getElem _ _ h]

/-- C7: fade-in multiplies exactly the first `min 882 len` samples by
the linear ramp `fadeInRamp` (which starts at `0`, ends at `1` for a
window of at least two points, and is non-decreasing), leaving the
rest unchanged; fade-out multiplies exactly the last `min 2205 len`
samples by the linear ramp `fadeOutRamp` (which starts at `1`, ends at
`0` for a window of at least two points, and is non-increasing),
leaving the rest unchanged; each window is independently clamped to
the buffer length. -/
theorem c7_fades (audio : List ℚ) (hne : audio ≠ []) :
    (apply_fade_in audio 882).length = audio.length ∧
    (apply_fade_out audio 2205).length = audio.length ∧
    (∀ i, i < min 882 audio.length →
      (apply_fade_in audio 882).getD i 0 =
        audio.getD i 0 * fadeInRamp (min 882 audio.length) i) ∧
    (∀ i, min 882 audio.length ≤ i → i < audio.length →
      (apply_fade_in audio 882).getD i 0 = audio.getD i 0) ∧
    fadeInRamp (min 882 audio.length) 0 = 0 ∧
    (2 ≤ min 882 audio.length →
      fadeInRamp (min 882 audio.length) (min 882 audio.length - 1) = 1) ∧
    (∀ i j, i ≤ j → j < min 882 audio.length →
      fadeInRamp (min 882 audio.length) i ≤ fadeInRamp (min 882 audio.length) j) ∧
    (∀ i, audio.length - min 2205 audio.length ≤ i → i < audio.length →
      (apply_fade_out audio 2205).getD i 0 =
        audio.getD i 0 * fadeOutRamp (min 2205 audio.length)
          (i - (audio.length - min 2205 audio.length))) ∧
    (∀ i, i < audio.length - min 2205 audio.length →
      (apply_fade_out audio 2205).getD i 0 = audio.getD i 0) ∧
    fadeOutRamp (min 2205 audio.length) 0 = 1 ∧
    (2 ≤ min 2205 audio.length →
      fadeOutRamp (min 2205 audio.length) (min 2205 audio.length - 1) = 0) ∧
    (∀ i j, i ≤ j →
      fadeOutRamp (min 2205 audio.length) j ≤ fadeOutRamp (min 2205 audio.length) i) := by
  have hlen : 1 ≤ audio.length := by
    cases audio with
    | nil => exact absurd rfl hne
    | cons a l => simp
  have hone : ∀ n : ℕ, 2 ≤ n → ((n : ℚ) - 1) ≠ 0 := by
    intro n h2
    have : (2 : ℚ) ≤ (n : ℚ) := by exact_mod_cast h2
    intro hc
    linarith
  refine ⟨by simp [apply_fade_in], by simp [apply_fade_out], ?_, ?_, ?_, ?_, ?_,
    ?_, ?_, ?_, ?_, ?_⟩
  · intro i hi
    rw [apply_fade_in_getD audio 882 i (lt_of_lt_of_le hi (min_le_right _ _)),
      if_pos hi]
  · intro i h1 h2
    rw [apply_fade_in_getD audio 882 i h2, if_neg (by omega)]
  · simp [fadeInRamp]
  · intro h2
    unfold fadeInRamp
    rw [div_eq_one_iff_eq (hone _ h2)]
    have hc : ((min 882 audio.length - 1 : ℕ) : ℚ) =
        ((min 882 audio.length : ℕ) : ℚ) - 1 := by
      push_cast [Nat.cast_sub (by omega : 1 ≤ min 882 audio.length)]
      ring
    exact hc
  · intro i j hij hj
    exact fadeInRamp_mono _ i j hij hj
  · intro i h1 h2
    rw [apply_fade_out_getD audio 2205 i h2, if_pos h1]
  · intro i hi
    have h2 : i < audio.length := by omega
    rw [apply_fade_out_getD audio 2205 i h2, if_neg (by omega)]
  · simp [fadeOutRamp]
  · intro h2
    unfold fadeOutRamp
    rw [sub_eq_zero]
    rw [eq_comm, div_eq_one_iff_eq (hone _ h2)]
    push_cast [Nat.cast_sub (by omega : 1 ≤ min 2205 audio.length)]
    ring
  · intro i j hij
    exact fadeOutRamp_anti _ i j hij (by omega)

/-- Witness for C7 at the concrete buffer `[1, 2, 3]` (shorter than
both fade windows, so both ramps clamp to the whole buffer). -/
theorem c7_fades_witness :
    (apply_fade_in [(1 : ℚ), 2, 3] 882).length = 3 ∧
    (apply_fade_in [(1 : ℚ), 2, 3] 882).getD 0 0 =
      (1 : ℚ) * fadeInRamp 3 0 ∧
    fadeOutRamp 3 1 ≤ fadeOutRamp 3 0 := by
  have h := c7_fades [(1 : ℚ), 2, 3] (by decide)
  have hmin : min 882 ([(1 : ℚ), 2, 3].length) = 3 := by decide
  refine ⟨by simpa using h.1, ?_, ?_⟩
  · have := h.2.2.1 0 (by rw [hmin]; omega)
    rw [hmin] at this
    simpa using this
  · have := h.2.2.2.2.2.2.2.2.2.2.2 0 1 (by omega)
    have hmin2 : min 2205 ([(1 : ℚ), 2, 3].length) = 3 := by decide
    rw [hmin2] at this
    exact this

theorem head?_filter_eq_find? {α : Type} (p : α → Bool) (l : List α) :
    (l.filter p).head? = l.find? p := by
  induction l with
  | nil => rfl
  | cons a l ih =>
      by_cases h : p a <;> simp [List.filter_cons, List.find?_cons, h, ih]

theorem find?_range_eq_some (n : ℕ) (p : ℕ → Bool) (i : ℕ) (hi : i < n)
    (hp : p i = true) (hmin : ∀ k, k < i → p k = false) :
    (List.range n).find? p = some i := by
  induction n with
  | zero => omega
  | succ m ih =>
      rw [List.range_succ, List.find?_append]
      rcases Nat.lt_or_ge i m with h | h
      · rw [ih h]
        rfl
      · have him : i = m := by omega
        subst him
        have hnone : (List.range i).find? p = none := by
          rw [List.find?_eq_none]
          intro x hx
          simp [hmin x (List.mem_range.mp hx)]
        rw [hnone]
        simp [hp]

theorem getLast?_filter_range (n : ℕ) (p : ℕ → Bool) (j : ℕ) (hj : j < n)
    (hp : p j = true) (hmax : ∀ k, j < k → k < n → p k = false) :
    ((List.range n).filter p).getLast? = some j := by
  induction n with
  | zero => omega
  | succ m ih =>
      rw [List.range_succ, List.filter_append]
      rcases Nat.lt_or_ge j m with h | h
      · have hm : p m = false := hmax m (by omega) (by omega)
        have hfm : [m].filter p = [] := by simp [hm]
        rw [hfm, List.append_nil]
        exact ih h (fun k h1 h2 => hmax k h1 (by omega))
      · have hjm : j = m := by omega
        subst hjm
        have hfm : [j].filter p = [j] := by simp [hp]
        rw [hfm]
        exact List.getLast?_concat _

/-- C6: silence trim takes the threshold to be 1% of the absolute
peak; if no sample strictly exceeds it the buffer is returned
unchanged; otherwise, with `i` the first and `j` the last index whose
absolute value strictly exceeds it, the result is the slice from
`i - 100` (clamped at 0 by natural subtraction) up to
`min len (j + 4410)`; in both cases the result of a non-empty input is
non-empty. -/
theorem c6_trim_silence (audio : List ℚ) (hne : audio ≠ []) :
    ((∀ i, i < audio.length →
        ¬ absPeak audio * (1 / 100) < |audio.getD i 0|) →
      trim_silence audio (1 / 100) = audio) ∧
    (∀ i j, i < audio.length →
      absPeak audio * (1 / 100) < |audio.getD i 0| →
      (∀ k, k < i → ¬ absPeak audio * (1 / 100) < |audio.getD k 0|) →
      j < audio.length →
      absPeak audio * (1 / 100) < |audio.getD j 0| →
      (∀ k, j < k → k < audio.length →
        ¬ absPeak audio * (1 / 100) < |audio.getD k 0|) →
      trim_silence audio (1 / 100) =
        (audio.take (min audio.length (j + 4410))).drop (i - 100)) ∧
    trim_silence audio (1 / 100) ≠ [] := by
  have hempty : (∀ i, i < audio.length →
      ¬ absPeak audio * (1 / 100) < |audio.getD i 0|) →
      trim_silence audio (1 / 100) = audio := by
    intro hall
    have hfil : (List.range audio.length).filter
        (fun i => absPeak audio * (1 / 100) < |audio.getD i 0|) = [] := by
      rw [List.filter_eq_nil_iff]
      intro x hx
      simpa using hall x (List.mem_range.mp hx)
    unfold trim_silence
    simp only [hfil]
    rfl
  have hslice : ∀ i j, i < audio.length →
      absPeak audio * (1 / 100) < |audio.getD i 0| →
      (∀ k, k < i → ¬ absPeak audio * (1 / 100) < |audio.getD k 0|) →
      j < audio.length →
      absPeak audio * (1 / 100) < |audio.getD j 0| →
      (∀ k, j < k → k < audio.length →
        ¬ absPeak audio * (1 / 100) < |audio.getD k 0|) →
      trim_silence audio (1 / 100) =
        (audio.take (min audio.length (j + 4410))).drop (i - 100) := by
    intro i j hi hpi hmin hj hpj hmax
    have hhead : ((List.range audio.length).filter
        (fun k => absPeak audio * (1 / 100) < |audio.getD k 0|)).head? =
          some i := by
      rw [head?_filter_eq_find?]
      exact find?_range_eq_some _ _ i hi (by simpa using hpi)
        (fun k hk => by simpa using hmin k hk)
    have hlast : ((List.range audio.length).filter
        (fun k => absPeak audio * (1 / 100) < |audio.getD k 0|)).getLast? =
          some j := by
      exact getLast?_filter_range _ _ j hj (by simpa using hpj)
        (fun k h1 h2 => by simpa using hmax k h1 h2)
    unfold trim_silence
    simp only [hhead, hlast]
  refine ⟨hempty, hslice, ?_⟩
  by_cases hex : ∃ k, k < audio.length ∧
      absPeak audio * (1 / 100) < |audio.getD k 0|
  · obtain ⟨k, hk, hpk⟩ := hex
    have hfind : ∃ m, absPeak audio * (1 / 100) < |audio.getD m 0| := ⟨k, hpk⟩
    set i := Nat.find hfind with hidef
    have hpi : absPeak audio * (1 / 100) < |audio.getD i 0| := Nat.find_spec hfind
    have hmin : ∀ m, m < i → ¬ absPeak audio * (1 / 100) < |audio.getD m 0| :=
      fun m hm => Nat.find_min hfind hm
    have hile : i ≤ k := Nat.find_min' hfind hpk
    have hi : i < audio.length := lt_of_le_of_lt hile hk
    set j := Nat.findGreatest
      (fun m => absPeak audio * (1 / 100) < |audio.getD m 0|)
      (audio.length - 1) with hjdef
    have hkle : k ≤ audio.length - 1 := by omega
    have hpj : absPeak audio * (1 / 100) < |audio.getD j 0| := by
      have h := Nat.findGreatest_spec
        (P := fun m => absPeak audio * (1 / 100) < |audio.getD m 0|) hkle hpk
      rw [← hjdef] at h
      exact h
    have hjle : j ≤ audio.length - 1 := Nat.findGreatest_le _
    have hj : j < audio.length := by omega
    have hmax : ∀ m, j < m → m < audio.length →
        ¬ absPeak audio * (1 / 100) < |audio.getD m 0| := by
      intro m h1 h2
      exact Nat.findGreatest_is_greatest h1 (by omega)
    have hij : i ≤ j := Nat.find_min' hfind hpj
    rw [hslice i j hi hpi hmin hj hpj hmax]
    intro hcon
    have hlen := congrArg List.length hcon
    simp only [List.length_drop, List.length_take, List.length_nil] at hlen
    omega
  · push_neg at hex
    rw [hempty (fun m hm => not_lt.mpr (hex m hm))]
    exact hne

/-- Witness for C6 at the concrete buffer `[0, 1, 0]` (peak 1,
threshold 1/100, first and last exceeding index both 1). -/
theorem c6_trim_silence_witness :
    trim_silence [(0 : ℚ), 1, 0] (1 / 100) = [0, 1, 0] ∧
    trim_silence [(0 : ℚ), 1, 0] (1 / 100) ≠ [] := by
  have hpk : absPeak [(0 : ℚ), 1, 0] = 1 := by
    unfold absPeak
    simp only [List.map_cons, List.map_nil, List.foldr_cons, List.foldr_nil]
    rw [abs_of_nonneg (by norm_num : (0 : ℚ) ≤ 0),
      abs_of_pos (by norm_num : (0 : ℚ) < 1)]
    norm_num [max_def]
  have h := c6_trim_silence [(0 : ℚ), 1, 0] (by decide)
  have hs := h.2.1 1 1 (by norm_num)
    (by rw [hpk]; norm_num)
    (by
      intro k hk
      have hk0 : k = 0 := by omega
      subst hk0
      rw [hpk]
      norm_num)
    (by norm_num)
    (by rw [hpk]; norm_num)
    (by
      intro k h1 h2
      simp only [List.length_cons, List.length_nil] at h2
      have hk2 : k = 2 := by omega
      subst hk2
      rw [hpk]
      norm_num)
  have hres : trim_silence [(0 : ℚ), 1, 0] (1 / 100) = [0, 1, 0] := by
    rw [hs]
    decide
  exact ⟨hres, h.2.2⟩

/-! ## Drum resolver (`extract_drums_from_sf2`, note loop) -/

/-- An instrument region-group ("bag"): an optional key range
`[low, high]` and an optional sample reference (modelled as an id). -/
structure InstBag where
  key_range : Option (ℕ × ℕ)
  sample : Option ℕ

/-- Whether a bag's key range exists and contains the note
(`if key_range: ... if low_key <= note_num <= high_key`). -/
def keyRangeMatches (kr : Option (ℕ × ℕ)) (note : ℕ) : Bool :=
  match kr with
  | some (lo, hi) => decide (lo ≤ note) && decide (note ≤ hi)
  | none => false

/-- The inner loop of `extract_drums_from_sf2`: scan `instrument.bags`
in declared order; the first bag whose key range contains the note
supplies `sample_obj` (the loop breaks there); `None` if no bag
matches. -/
def findSampleForNote (bags : List InstBag) (note : ℕ) : Option ℕ :=
  match bags with
  | [] => none
  | b :: rest =>
      match b.key_range with
      | some (lo, hi) =>
          if lo ≤ note ∧ note ≤ hi then b.sample
          else findSampleForNote rest note
      | none => findSampleForNote rest note

/-- The outer loop `for note_num in range(27, 88)`: collect
`(note, sample)` pairs, skipping notes with no resolved sample. -/
def extractNotes (bags : List InstBag) : List (ℕ × ℕ) :=
  (List.range' 27 61).filterMap
    (fun note => (findSampleForNote bags note).map (fun s => (note, s)))

/-- The spec's synthetic overlapping-range instrument: key ranges
`[30, 40]` then `[35, 45]` in declared order, with distinct sample
ids. -/
def overlapBags : List InstBag :=
  [⟨some (30, 40), some 1⟩, ⟨some (35, 45), some 2⟩]

theorem findSampleForNote_eq_find? (bags : List InstBag) (note : ℕ) :
    findSampleForNote bags note =
      (bags.find? (fun b => keyRangeMatches b.key_range note)).bind
        (fun b => b.sample) := by
  induction bags with
  | nil => rfl
  | cons b rest ih =>
      rcases hkr : b.key_range with _ | ⟨lo, hi⟩
      · simp [findSampleForNote, List.find?_cons, keyRangeMatches, hkr, ih]
      · by_cases h : lo ≤ note ∧ note ≤ hi
        · simp [findSampleForNote, List.find?_cons, keyRangeMatches, hkr,
            h.1, h.2]
        · have hb : keyRangeMatches (some (lo, hi)) note = false := by
            unfold keyRangeMatches
            rcases Decidable.not_and_iff_or_not.mp h with h1 | h1 <;> simp [h1]
          simp [findSampleForNote, List.find?_cons, hkr, h, hb, ih]

/-- C4: the resolver selects the sample of the first region-group (in
declared order) whose key range contains the note — formalized by
agreement with `List.find?` — so on the overlapping synthetic
instrument, note 37 resolves to the first region's sample; notes whose
key ranges match no region are absent from the extracted output rather
than an error, and every note in 27..87 with a resolved sample is
present. -/
theorem c4_first_match (bags : List InstBag) (note : ℕ) :
    (findSampleForNote bags note =
      (bags.find? (fun b => keyRangeMatches b.key_range note)).bind
        (fun b => b.sample)) ∧
    findSampleForNote overlapBags 37 = some 1 ∧
    ((∀ b ∈ bags, keyRangeMatches b.key_range note = false) →
      ∀ s, (note, s) ∉ extractNotes bags) ∧
    (∀ s, 27 ≤ note → note ≤ 87 → findSampleForNote bags note = some s →
      (note, s) ∈ extractNotes bags) := by
  refine ⟨findSampleForNote_eq_find? bags note, by decide, ?_, ?_⟩
  · intro hall s hmem
    have hnone : findSampleForNote bags note = none := by
      rw [findSampleForNote_eq_find? bags note, List.find?_eq_none.mpr
        (fun b hb => by simp [hall b hb])]
      rfl
    unfold extractNotes at hmem
    rw [List.mem_filterMap] at hmem
    obtain ⟨a, ha, hfa⟩ := hmem
    rcases hf : findSampleForNote bags a with _ | v
    · rw [hf] at hfa
      exact Option.noConfusion hfa
    · rw [hf] at hfa
      have hp : (a, v) = (note, s) := Option.some.inj hfa
      have h1 : a = note := congrArg Prod.fst hp
      have h2 : v = s := congrArg Prod.snd hp
      subst h1
      subst h2
      rw [hnone] at hf
      exact Option.noConfusion hf
  · intro s h27 h87 hfind
    unfold extractNotes
    rw [List.mem_filterMap]
    exact ⟨note, List.mem_range'_1.mpr ⟨h27, by omega⟩, by rw [hfind]; rfl⟩

/-- Witness for C4: on the synthetic overlapping instrument, note 37
maps to sample 1 and appears in the output, while note 50 (outside
both ranges) is absent. -/
theorem c4_first_match_witness :
    findSampleForNote overlapBags 37 = some 1 ∧
    (37, 1) ∈ extractNotes overlapBags ∧
    ∀ s, (50, s) ∉ extractNotes overlapBags := by
  have h := c4_first_match overlapBags 37
  have h50 := c4_first_match overlapBags 50
  exact ⟨h.2.1, h.2.2.2 1 (by decide) (by decide) (by decide),
    h50.2.2.1 (by decide)⟩

/-! ## C8: empty-input behaviour of the asset encoder -/

/-- C8 counterexample: there is no `EmptyAudioError` anywhere in the
code; on a zero-sample input the encoder silently emits a zero-length
raw dump and a packed array consisting of exactly the lone header word
(`0x81000000`, count 0) — the degenerate asset the claim says is never
produced. -/
theorem c8_counterexample :
    save_as_raw ([] : List ℚ) = [] ∧
    cHeaderWords (save_as_raw ([] : List ℚ)) = [headerWord 0] ∧
    (cHeaderWords (save_as_raw ([] : List ℚ))).length = 1 ∧
    headerWord 0 = 0x81 * 2 ^ 24 := by
  refine ⟨rfl, rfl, rfl, ?_⟩
  have h := headerWord_eq_add 0
  simpa using h

/-- C8 amended: the encoder performs no empty-input check and cannot
fail; for any input whose quantized sample count is zero it emits an
empty raw dump together with a packed array of exactly one word, the
header `0x81 * 2^24` with sample count 0 (declared size
`numUint32 0 = 1`). -/
theorem c8_empty_emits (audio : List ℚ) (h : audio = []) :
    save_as_raw audio = [] ∧
    cHeaderWords (save_as_raw audio) = [headerWord 0] ∧
    (cHeaderWords (save_as_raw audio)).length = numUint32 0 ∧
    headerWord 0 = 0x81 * 2 ^ 24 := by
  subst h
  refine ⟨rfl, rfl, rfl, ?_⟩
  have h := headerWord_eq_add 0
  simpa using h

/-- Witness for the amended C8 at the empty buffer. -/
theorem c8_empty_emits_witness :
    save_as_raw ([] : List ℚ) = [] ∧
    (cHeaderWords (save_as_raw ([] : List ℚ))).length = numUint32 0 :=
  ⟨(c8_empty_emits [] rfl).1, (c8_empty_emits [] rfl).2.2.1⟩

/-! ## Source reader: directory listing (`main`)

Filenames are modelled as lists of characters (Python strings compare
lexicographically by code point).  The code collects
`glob("*.wav") + glob("*.WAV")` and processes `sorted(wav_files)`. -/

/-- The literal suffix `".wav"`. -/
def wavLower : List Char := ['.', 'w', 'a', 'v']

/-- The literal suffix `".WAV"`. -/
def wavUpper : List Char := ['.', 'W', 'A', 'V']

/-- Directory scan of `main`: files matching `*.wav` plus files
matching `*.WAV`, then sorted (Python `sorted`, case-sensitive
lexicographic order). -/
def listWavFiles (files : List (List Char)) : List (List Char) :=
  ((files.filter (fun f => wavLower.isSuffixOf f)) ++
    (files.filter (fun f => wavUpper.isSuffixOf f))).insertionSort (· ≤ ·)

/-- The filename `a.wav`. -/
def fileAwav : List Char := ['a', '.', 'w', 'a', 'v']

/-- The filename `B.WAV`. -/
def fileBWAV : List Char := ['B', '.', 'W', 'A', 'V']

/-- The filename `c.txt`. -/
def fileCtxt : List Char := ['c', '.', 't', 'x', 't']

/-- The filename `d.Wav` (a case-insensitive `.wav` match the glob
pair misses). -/
def fileDWav : List Char := ['d', '.', 'W', 'a', 'v']

/-- C9 counterexample: on the spec's own example directory the scan
yields `[B.WAV, a.wav]` — not `[a.wav, B.WAV]` as claimed, because
Python's `sorted` is case-sensitive and `B` (0x42) precedes `a`
(0x61); moreover a mixed-case extension such as `d.Wav` matches
case-insensitively but is excluded by `glob("*.wav") + glob("*.WAV")`. -/
theorem c9_counterexample :
    listWavFiles [fileAwav, fileBWAV, fileCtxt] = [fileBWAV, fileAwav] ∧
    listWavFiles [fileAwav, fileBWAV, fileCtxt] ≠ [fileAwav, fileBWAV] ∧
    listWavFiles [fileDWav] = [] := by
  refine ⟨by decide, by decide, by decide⟩

/-- C9 amended: the directory scan includes exactly the files whose
name ends in the literal suffix `.wav` or `.WAV` (other casings such
as `.Wav` are excluded), and yields them sorted in case-sensitive
lexicographic (code-point) order. -/
theorem c9_dir_listing (files : List (List Char)) :
    (∀ f, f ∈ listWavFiles files ↔
      (f ∈ files ∧ (wavLower.isSuffixOf f ∨ wavUpper.isSuffixOf f))) ∧
    List.Sorted (· ≤ ·) (listWavFiles files) := by
  constructor
  · intro f
    unfold listWavFiles
    rw [List.Perm.mem_iff (List.perm_insertionSort _ _)]
    simp only [List.mem_append, List.mem_filter]
    tauto
  · exact List.sorted_insertionSort _ _

end ExtractDrums
